import Mathlib

/-!
Shallow embedding of `bitcoin_address_validator.py`.

Python strings are modelled as lists of Unicode code points (`List Nat`,
`ord` of each character).  The spec scopes inputs to ASCII-range code
points, and every case conversion in the source is either applied after an
explicit `33 ≤ ord c ≤ 126` filter or belongs to the ASCII-scoped
classifier, so `str.lower` / `str.upper` are embedded as the ASCII case
maps `lowerCode` / `upperCode`, which agree with Python on that range.

`hashlib.sha256` is an external library call; it is embedded as a full
executable SHA-256 over byte lists, following FIPS 180-4.
-/

/-- Code points of a Lean string literal, used to transcribe the Python
string literals of the source. -/
def codes (s : String) : List Nat := s.data.map Char.toNat

/-- ASCII lowercase map on one code point (Python `str.lower`, restricted to
the ASCII range where the source applies it). -/
def lowerCode (c : Nat) : Nat := if 65 ≤ c ∧ c ≤ 90 then c + 32 else c

/-- ASCII uppercase map on one code point. -/
def upperCode (c : Nat) : Nat := if 97 ≤ c ∧ c ≤ 122 then c - 32 else c

/-- Python `s.lower()` on an ASCII-range string. -/
def lowerStr (s : List Nat) : List Nat := s.map lowerCode

/-- Python `s.upper()` on an ASCII-range string. -/
def upperStr (s : List Nat) : List Nat := s.map upperCode

/-- Python `s.startswith(p)`. -/
def startsWith (s p : List Nat) : Bool := p.isPrefixOf s

/-- Python `s.rfind(c)`: index of the last occurrence, `none` for `-1`. -/
def rfind (c : Nat) : List Nat → Option Nat
  | [] => none
  | x :: xs =>
    match rfind c xs with
    | some i => some (i + 1)
    | none => if x = c then some 0 else none

/-- Big-endian bytes of `n`, exactly `len` bytes (Python
`n.to_bytes(len, byteorder=big)`; the source always passes a
sufficient `len`, so the overflow branch of `to_bytes` is unreachable). -/
def toBytesBE : Nat → Nat → List Nat
  | 0, _ => []
  | len + 1, n => (n >>> (8 * len)) % 256 :: toBytesBE len n

/-- Binary digit count, structurally recursive on a fuel bound so that it
reduces inside the kernel; any fuel of at least `n` computes the digit
count of `n`, since the argument at least halves each step. -/
def bitLengthAux : Nat → Nat → Nat
  | _, 0 => 0
  | 0, _ + 1 => 0
  | fuel + 1, m + 1 => bitLengthAux fuel ((m + 1) / 2) + 1

/-- Python `int.bit_length()`: the number of binary digits, 0 for 0. -/
def bitLength (n : Nat) : Nat := bitLengthAux n n

/-! ## SHA-256 (embedding of `hashlib.sha256(...).digest()`) -/

/-- SHA-256 round constants, in decimal. -/
def shaK : List Nat :=
  [1116352408, 1899447441, 3049323471, 3921009573, 961987163,
   1508970993, 2453635748, 2870763221, 3624381080, 310598401,
   607225278, 1426881987, 1925078388, 2162078206, 2614888103,
   3248222580, 3835390401, 4022224774, 264347078, 604807628,
   770255983, 1249150122, 1555081692, 1996064986, 2554220882,
   2821834349, 2952996808, 3210313671, 3336571891, 3584528711,
   113926993, 338241895, 666307205, 773529912, 1294757372,
   1396182291, 1695183700, 1986661051, 2177026350, 2456956037,
   2730485921, 2820302411, 3259730800, 3345764771, 3516065817,
   3600352804, 4094571909, 275423344, 430227734, 506948616,
   659060556, 883997877, 958139571, 1322822218, 1537002063,
   1747873779, 1955562222, 2024104815, 2227730452, 2361852424,
   2428436474, 2756734187, 3204031479, 3329325298]

/-- SHA-256 initial hash state, in decimal. -/
def shaH0 : List Nat :=
  [1779033703, 3144134277, 1013904242, 2773480762,
   1359893119, 2600822924, 528734635, 1541459225]

/-- Right rotation of a 32-bit word. -/
def rotr32 (x n : Nat) : Nat := ((x >>> n) ||| (x <<< (32 - n))) % 2 ^ 32

/-- SHA-256 σ0. -/
def sigma0 (x : Nat) : Nat := rotr32 x 7 ^^^ rotr32 x 18 ^^^ (x >>> 3)

/-- SHA-256 σ1. -/
def sigma1 (x : Nat) : Nat := rotr32 x 17 ^^^ rotr32 x 19 ^^^ (x >>> 10)

/-- SHA-256 Σ0. -/
def bigSigma0 (x : Nat) : Nat := rotr32 x 2 ^^^ rotr32 x 13 ^^^ rotr32 x 22

/-- SHA-256 Σ1. -/
def bigSigma1 (x : Nat) : Nat := rotr32 x 6 ^^^ rotr32 x 11 ^^^ rotr32 x 25

/-- SHA-256 Ch function; `~x` on 32 bits is `x ^^^ 0xffffffff`. -/
def shaCh (x y z : Nat) : Nat := (x &&& y) ^^^ ((x ^^^ 0xffffffff) &&& z)

/-- SHA-256 Maj function. -/
def shaMaj (x y z : Nat) : Nat := (x &&& y) ^^^ (x &&& z) ^^^ (y &&& z)

/-- Merkle–Damgård padding: append `0x80`, zeros, and the 64-bit big-endian
bit length, reaching a multiple of 64 bytes. -/
def shaPad (msg : List Nat) : List Nat :=
  let padlen := (64 - (msg.length + 9) % 64) % 64
  msg ++ [0x80] ++ List.replicate padlen 0 ++ toBytesBE 8 (msg.length * 8)

/-- Group bytes into big-endian 32-bit words. -/
def bytesToWords : List Nat → List Nat
  | b0 :: b1 :: b2 :: b3 :: rest =>
      ((b0 <<< 24) ||| (b1 <<< 16) ||| (b2 <<< 8) ||| b3) :: bytesToWords rest
  | _ => []

/-- Extend the 16-word message schedule by `n` further words. -/
def extendW : Nat → List Nat → List Nat
  | 0, w => w
  | n + 1, w =>
    extendW n (w ++ [(sigma1 (w.getD (w.length - 2) 0) + w.getD (w.length - 7) 0 +
                      sigma0 (w.getD (w.length - 15) 0) + w.getD (w.length - 16) 0) % 2 ^ 32])

/-- One SHA-256 compression round on the state `[a,b,c,d,e,f,g,h]`. -/
def shaRound (st : List Nat) (kw : Nat × Nat) : List Nat :=
  match st with
  | [a, b, c, d, e, f, g, h] =>
    let t1 := (h + bigSigma1 e + shaCh e f g + kw.1 + kw.2) % 2 ^ 32
    let t2 := (bigSigma0 a + shaMaj a b c) % 2 ^ 32
    [(t1 + t2) % 2 ^ 32, a, b, c, (d + t1) % 2 ^ 32, e, f, g]
  | other => other

/-- Process one 64-byte chunk. -/
def shaChunk (st chunk : List Nat) : List Nat :=
  let w := extendW 48 (bytesToWords chunk)
  let st2 := (shaK.zip w).foldl shaRound st
  (st.zip st2).map (fun p => (p.1 + p.2) % 2 ^ 32)

/-- Split a byte list into 64-byte chunks, structurally recursive on a
fuel bound so that it reduces inside the kernel; any fuel of at least
`l.length` yields the chunk decomposition, since each step drops a
nonempty prefix. -/
def chunks64Aux : Nat → List Nat → List (List Nat)
  | _, [] => []
  | 0, _ :: _ => []
  | fuel + 1, l@(_ :: _) => l.take 64 :: chunks64Aux fuel (l.drop 64)

/-- Split a byte list into 64-byte chunks. -/
def chunks64 (l : List Nat) : List (List Nat) := chunks64Aux l.length l

/-- SHA-256 of a byte list, as a 32-byte list (`hashlib.sha256(m).digest()`). -/
def sha256 (msg : List Nat) : List Nat :=
  ((chunks64 (shaPad msg)).foldl shaChunk shaH0).foldr (fun w acc => toBytesBE 4 w ++ acc) []

/-! ## Base58Check codec -/

/-- Code points of `BASE58_ALPHABET`. -/
def BASE58_ALPHABET : List Nat :=
  codes "123456789ABCDEFGHJKLMNPQRSTUVWXYZabcdefghijkmnopqrstuvwxyz"

/-- Code points of `BECH32_CHARSET`. -/
def BECH32_CHARSET : List Nat := codes "qpzry9x8gf2tvdw0s3jn54khce6mua7l"

/-- The accumulation loop of `base58_decode`: `num = num * 58 + index`,
failing on a character outside the alphabet (`char not in BASE58_ALPHABET`,
with `.index` returning the first index otherwise). -/
def base58Num (s : List Nat) : Option Nat :=
  s.foldlM (fun num c =>
    match BASE58_ALPHABET.findIdx? (· = c) with
    | none => none
    | some i => some (num * 58 + i)) 0

/-- `base58_decode`: big-endian base-58 number to minimal bytes
(`num.to_bytes((num.bit_length() + 7) // 8, big)`), re-prefixed with one
zero byte per leading alphabet character of value 0
(`n_pad = len(s) - len(s.lstrip(firstAlphabetChar))`). -/
def base58_decode (s : List Nat) : Option (List Nat) :=
  match base58Num s with
  | none => none
  | some num =>
    let combined := toBytesBE ((bitLength num + 7) / 8) num
    let n_pad := s.length - (s.dropWhile (· == 49)).length
    some (List.replicate n_pad 0 ++ combined)

/-- `base58_check`: the guard `if not decoded or len(decoded) < 4` covers
both the `None` result and any byte string shorter than 4 (the empty,
falsy byte string is already shorter than 4). -/
def base58_check (s : List Nat) : Bool :=
  match base58_decode s with
  | none => false
  | some decoded =>
    if decoded.length < 4 then false
    else
      let checksum := decoded.drop (decoded.length - 4)
      let vh160 := decoded.take (decoded.length - 4)
      let h := sha256 (sha256 vh160)
      checksum == h.take 4

/-! ## Bech32 codec -/

/-- The five generator constants of `bech32_polymod`. -/
def GENERATORS : List Nat := [0x3b6a57b2, 0x26508e6d, 0x1ea119fa, 0x3d4233dd, 0x2a1462b3]

/-- Loop body of `bech32_polymod`: take the top 5 bits, shift the 25-bit
state left by 5, xor the value, then conditionally xor each generator. -/
def polymodStep (chk v : Nat) : Nat :=
  let b := chk >>> 25
  let chk1 := ((chk &&& 0x1ffffff) <<< 5) ^^^ v
  (List.range 5).foldl (fun c i =>
    if (b >>> i) &&& 1 = 1 then c ^^^ GENERATORS.getD i 0 else c) chk1

/-- `bech32_polymod`: BCH checksum kernel, 25-bit running state shifted by
5 bits each step, conditionally xoring the five generators. -/
def bech32_polymod (values : List Nat) : Nat := values.foldl polymodStep 1

/-- `bech32_hrp_expand`: high 3 bits of each character, a zero, then the
low 5 bits of each character. -/
def bech32_hrp_expand (hrp : List Nat) : List Nat :=
  hrp.map (fun x => x >>> 5) ++ [0] ++ hrp.map (fun x => x &&& 31)

/-- `bech32_verify_checksum`: polymod of expanded hrp plus data equals 1. -/
def bech32_verify_checksum (hrp data : List Nat) : Bool :=
  bech32_polymod (bech32_hrp_expand hrp ++ data) == 1

/-- `bech32m_verify_checksum`: polymod equals the Bech32m constant. -/
def bech32m_verify_checksum (hrp data : List Nat) : Bool :=
  bech32_polymod (bech32_hrp_expand hrp ++ data) == 0x2bc830a3

/-- The data-character loop of `decode_bech32`: fail on the first
character outside `BECH32_CHARSET` (`if c not in BECH32_CHARSET: return
None`), otherwise collect `BECH32_CHARSET.find(c)`, the first index. -/
def charsetIdx : List Nat → Option (List Nat)
  | [] => some []
  | c :: cs =>
    match BECH32_CHARSET.findIdx? (· = c) with
    | none => none
    | some i => (charsetIdx cs).map (i :: ·)

/-- `decode_bech32`: code-point range check, mixed-case rejection,
lowercasing, split at the last separator `1` (code point 49), and
charset lookup of the data part (`rfind` returning `-1` or `0` and a data
part shorter than 6 are rejected by `pos == -1 or pos < 1 or
pos + 7 > len(address)`). -/
def decode_bech32 (address : List Nat) : Option (List Nat × List Nat) :=
  if address.any (fun x => x < 33 || 126 < x) then none
  else if lowerStr address ≠ address ∧ upperStr address ≠ address then none
  else
    let address := lowerStr address
    match rfind 49 address with
    | none => none
    | some pos =>
      if pos < 1 then none
      else if address.length < pos + 7 then none
      else
        let hrp := address.take pos
        let data := address.drop (pos + 1)
        match charsetIdx data with
        | none => none
        | some data_values => some (hrp, data_values)

/-- `validate_bech32`: `decode_bech32` then the two checksum variants in
order (a returned pair is a two-element tuple, hence truthy in the Python
`if not decode_result` guard, so only `None` maps to Invalid there). -/
def validate_bech32 (address : List Nat) : String :=
  match decode_bech32 address with
  | none => "Invalid"
  | some (hrp, data) =>
    if bech32_verify_checksum hrp data then "bech32"
    else if bech32m_verify_checksum hrp data then "bech32m"
    else "Invalid"

/-! ## Address classifier -/

/-- `validate`: prefix dispatch to the two codecs, then label selection. -/
def validate (address : List Nat) : String :=
  if startsWith address (codes "1") || startsWith address (codes "3") then
    if base58_check address then
      if startsWith address (codes "1") then "Legacy P2PKH" else "P2SH"
    else "Invalid"
  else if startsWith (lowerStr address) (codes "bc1") then
    let typ := validate_bech32 address
    if typ = "bech32" then
      if startsWith (lowerStr address) (codes "bc1q") then "Native SegWit bech32"
      else "Unknown bech32"
    else if typ = "bech32m" then
      if startsWith (lowerStr address) (codes "bc1p") then "Taproot bech32m"
      else "Unknown bech32m"
    else "Invalid"
  else "Invalid"

/-! ## Spec-side definitions (written from the specification wording, for
refinement claims; each is compared against the source embedding above) -/

/-- Spec wording of the hrp expansion: the high 3 bits of each character's
code point, a zero separator value, then the low 5 bits of each
character's code point. -/
def hrpExpandSpec (hrp : List Nat) : List Nat :=
  (hrp.map fun c => c >>> 5) ++ [0] ++ (hrp.map fun c => c &&& 31)

/-- The hrp and data values of the spec's SegWit example address, used to
instantiate hypotheses at a concrete checksum-passing input. -/
def segwitHrp : List Nat := codes "bc"

/-- Data values of the spec's SegWit example address. -/
def segwitData : List Nat :=
  [0, 6, 4, 10, 22, 8, 13, 4, 8, 18, 3, 16, 0, 11, 2, 0, 10, 19, 15, 4, 3,
   9, 10, 21, 5, 17, 1, 7, 17, 22, 22, 9, 18, 23, 6, 15, 14, 31, 23]

/-! ## Helper lemmas -/

/-- Xoring a quantity below `2 ^ 30` (or not) keeps the state below `2 ^ 30`. -/
theorem xorGen_lt {cond : Prop} [Decidable cond] {c g : Nat}
    (hc : c < 2 ^ 30) (hg : g < 2 ^ 30) :
    (if cond then c ^^^ g else c) < 2 ^ 30 := by
  split
  · exact Nat.xor_lt_two_pow hc hg
  · exact hc

/-- The generator-xoring inner loop of `polymodStep` preserves the 30-bit bound. -/
theorem polymod_inner_lt (b chk1 : Nat) (h : chk1 < 2 ^ 30) :
    (List.range 5).foldl (fun c i =>
      if (b >>> i) &&& 1 = 1 then c ^^^ GENERATORS.getD i 0 else c) chk1 < 2 ^ 30 := by
  have h5 : List.range 5 = [0, 1, 2, 3, 4] := rfl
  rw [h5]
  simp only [List.foldl_cons, List.foldl_nil]
  exact xorGen_lt (xorGen_lt (xorGen_lt (xorGen_lt (xorGen_lt h (by decide))
    (by decide)) (by decide)) (by decide)) (by decide)

/-- One `polymodStep` preserves the 30-bit bound when the value is 5-bit. -/
theorem polymodStep_lt {chk v : Nat} (_hc : chk < 2 ^ 30) (hv : v < 32) :
    polymodStep chk v < 2 ^ 30 := by
  simp only [polymodStep]
  apply polymod_inner_lt
  apply Nat.xor_lt_two_pow
  · have h1 : chk &&& 0x1ffffff ≤ 0x1ffffff := Nat.and_le_right
    rw [Nat.shiftLeft_eq]
    calc (chk &&& 0x1ffffff) * 2 ^ 5 ≤ 0x1ffffff * 2 ^ 5 := Nat.mul_le_mul_right _ h1
      _ < 2 ^ 30 := by norm_num
  · exact Nat.lt_of_lt_of_le hv (by norm_num)

/-! ## Claim theorems -/

/-- C4: `bech32_verify_checksum hrp data` holds iff the polymod of the
expanded hrp followed by the data equals 1, and `bech32m_verify_checksum`
holds iff it equals `0x2bc830a3`, where the expansion is the high 3 bits
of each hrp character, a single 0, then the low 5 bits of each character. -/
theorem checksum_constants (hrp data : List Nat) :
    (bech32_verify_checksum hrp data = true ↔
      bech32_polymod (hrpExpandSpec hrp ++ data) = 1) ∧
    (bech32m_verify_checksum hrp data = true ↔
      bech32_polymod (hrpExpandSpec hrp ++ data) = 0x2bc830a3) := by
  constructor <;>
    simp [bech32_verify_checksum, bech32m_verify_checksum, hrpExpandSpec, bech32_hrp_expand]

set_option maxRecDepth 100000 in
/-- Witness for C4 at the spec's SegWit example: its checksum satisfies
the Bech32 constant. -/
theorem checksum_constants_witness :
    bech32_polymod (hrpExpandSpec segwitHrp ++ segwitData) = 1 :=
  (checksum_constants segwitHrp segwitData).1.mp (by decide)

/-- C5: the two checksum variants are never both satisfied by one
`(hrp, data)` pair, and `validate_bech32` always answers exactly one of
`bech32`, `bech32m`, `Invalid`. -/
theorem bech32_variants_exclusive :
    (∀ hrp data, (bech32_verify_checksum hrp data && bech32m_verify_checksum hrp data) = false) ∧
    (∀ a, validate_bech32 a = "bech32" ∨ validate_bech32 a = "bech32m" ∨
      validate_bech32 a = "Invalid") := by
  constructor
  · intro hrp data
    by_cases h : bech32_polymod (bech32_hrp_expand hrp ++ data) = 1
    · simp [bech32_verify_checksum, bech32m_verify_checksum, h]
    · simp [bech32_verify_checksum, h]
  · intro a
    cases h : decode_bech32 a with
    | none => simp [validate_bech32, h]
    | some p =>
      obtain ⟨hrp, data⟩ := p
      simp only [validate_bech32, h]
      split_ifs <;> simp

set_option maxRecDepth 100000 in
/-- C7: the spec's concrete SegWit scenario: the example address is
classified as Native SegWit bech32. -/
theorem validate_segwit_example :
    validate (codes "bc1qxy2kgdygjrsqtzq2n0yrf2493p83kkfjhx0wlh") = "Native SegWit bech32" := by
  decide

/-- C9: on 5-bit values the polymod checksum is a 30-bit natural number. -/
theorem bech32_polymod_30bit (values : List Nat) (h : ∀ v ∈ values, v < 32) :
    bech32_polymod values < 2 ^ 30 := by
  have aux : ∀ (l : List Nat) (chk : Nat), chk < 2 ^ 30 → (∀ v ∈ l, v < 32) →
      l.foldl polymodStep chk < 2 ^ 30 := by
    intro l
    induction l with
    | nil => intro chk hc _; simpa using hc
    | cons v vs ih =>
      intro chk hc hv
      rw [List.foldl_cons]
      exact ih _ (polymodStep_lt hc (hv v (List.mem_cons_self v vs)))
        (fun x hx => hv x (List.mem_cons_of_mem _ hx))
  exact aux values 1 (by norm_num) h

/-- Witness for C9 at a concrete 5-bit value list. -/
theorem bech32_polymod_30bit_witness :
    (∀ v ∈ [0, 31, 5], v < 32) ∧ bech32_polymod [0, 31, 5] < 2 ^ 30 :=
  ⟨by decide, bech32_polymod_30bit [0, 31, 5] (by decide)⟩

/-! ## Base58 helper lemmas -/

/-- A `findIdx?` search for an equal element fails exactly on non-members. -/
theorem findIdxq_none_iff {l : List Nat} {c : Nat} :
    l.findIdx? (· = c) = none ↔ c ∉ l := by
  rw [List.findIdx?_eq_none_iff]
  constructor
  · intro h hc
    have := h c hc
    simp at this
  · intro hc x hx
    simp only [decide_eq_false_iff_not]
    exact fun he => hc (he ▸ hx)

/-- On a member, `findIdx?` returns the `findIdx` index. -/
theorem findIdxq_mem {l : List Nat} {c : Nat} (h : c ∈ l) :
    l.findIdx? (· = c) = some (l.findIdx (· = c)) := by
  cases hf : l.findIdx? (· = c) with
  | none => exact absurd (findIdxq_none_iff.mp hf) (by simp [h])
  | some i => rw [List.findIdx_eq_findIdx? (· = c) l, hf]

/-- The length of `toBytesBE len n` is `len`. -/
theorem toBytesBE_length (len n : Nat) : (toBytesBE len n).length = len := by
  induction len with
  | zero => rfl
  | succ m ih => simp [toBytesBE, ih]

/-- Every byte produced by `toBytesBE` is below 256. -/
theorem toBytesBE_lt (len n : Nat) : ∀ x ∈ toBytesBE len n, x < 256 := by
  induction len with
  | zero => intro x hx; cases hx
  | succ m ih =>
    intro x hx
    simp only [toBytesBE, List.mem_cons] at hx
    rcases hx with rfl | hx
    · exact Nat.mod_lt _ (by norm_num)
    · exact ih x hx

/-- Accumulator form of the big-endian value fold. -/
theorem bytesBE_foldl (l : List Nat) :
    ∀ a, l.foldl (fun acc b => acc * 256 + b) a =
      a * 256 ^ l.length + l.foldl (fun acc b => acc * 256 + b) 0 := by
  induction l with
  | nil => intro a; simp
  | cons x xs ih =>
    intro a
    rw [List.foldl_cons, List.foldl_cons, ih (a * 256 + x), ih (0 * 256 + x)]
    simp [List.length_cons, pow_succ]
    ring

/-- `bytesBEtoNat` is declared below; value of big-endian bytes. -/
def bytesBEtoNat (l : List Nat) : Nat := l.foldl (fun acc b => acc * 256 + b) 0

/-- `toBytesBE` represents `n` modulo `2 ^ (8 len)` in big-endian. -/
theorem bytesBEtoNat_toBytesBE (len n : Nat) :
    bytesBEtoNat (toBytesBE len n) = n % 2 ^ (8 * len) := by
  induction len with
  | zero => simp [toBytesBE, bytesBEtoNat, Nat.mod_one]
  | succ m ih =>
    have h2 : (2 : ℕ) ^ (8 * (m + 1)) = 2 ^ (8 * m) * 256 := by
      rw [Nat.mul_succ, pow_add]
      norm_num
    have h256 : (256 : ℕ) ^ m = 2 ^ (8 * m) := by
      rw [pow_mul]
      norm_num
    rw [toBytesBE, bytesBEtoNat, List.foldl_cons, bytesBE_foldl, toBytesBE_length]
    have hfold : (toBytesBE m n).foldl (fun acc b => acc * 256 + b) 0 = n % 2 ^ (8 * m) := ih
    rw [hfold, h2, Nat.mod_mul, Nat.shiftRight_eq_div_pow, h256]
    ring

/-- With enough fuel, `bitLengthAux` computes the binary digit count. -/
theorem bitLengthAux_eq (fuel : Nat) : ∀ n, n ≤ fuel →
    bitLengthAux fuel n = if n = 0 then 0 else Nat.log2 n + 1 := by
  induction fuel with
  | zero =>
    intro n hn
    have h0 : n = 0 := Nat.le_zero.mp hn
    subst h0
    rfl
  | succ f ih =>
    intro n hn
    cases n with
    | zero => rfl
    | succ m =>
      rw [bitLengthAux]
      have hle : (m + 1) / 2 ≤ f := by omega
      rw [ih _ hle]
      by_cases h1 : m + 1 = 1
      · rw [h1]
        norm_num [Nat.log2]
      · have h2 : 2 ≤ m + 1 := by omega
        rw [if_neg (by omega : ¬(m + 1) / 2 = 0), if_neg (by omega : ¬m + 1 = 0)]
        conv_rhs => rw [Nat.log2]
        rw [if_pos h2]

/-- `bitLength` agrees with the `log2`-based digit count. -/
theorem bitLength_eq (n : Nat) : bitLength n = if n = 0 then 0 else Nat.log2 n + 1 :=
  bitLengthAux_eq n n (Nat.le_refl n)

/-- `n` fits in the byte count computed from its bit length. -/
theorem lt_pow_bitLength (n : Nat) : n < 2 ^ (8 * ((bitLength n + 7) / 8)) := by
  by_cases h0 : n = 0
  · subst h0; exact Nat.pos_pow_of_pos _ (by norm_num)
  · have hbl : bitLength n = Nat.log2 n + 1 := by rw [bitLength_eq, if_neg h0]
    have h1 : n < 2 ^ bitLength n := by rw [hbl]; exact Nat.lt_log2_self
    have h2 : bitLength n ≤ 8 * ((bitLength n + 7) / 8) := by omega
    exact Nat.lt_of_lt_of_le h1 (Nat.pow_le_pow_right (by norm_num) h2)

/-- For positive `n` the leading byte of its minimal representation is nonzero. -/
theorem toBytesBE_head_ne_zero {n : Nat} (h0 : n ≠ 0) :
    ∀ x, (toBytesBE ((bitLength n + 7) / 8) n).head? = some x → x ≠ 0 := by
  have hbl : bitLength n = Nat.log2 n + 1 := by rw [bitLength_eq, if_neg h0]
  have hlen : 1 ≤ (bitLength n + 7) / 8 := by omega
  obtain ⟨m, hm⟩ : ∃ m, (bitLength n + 7) / 8 = m + 1 :=
    ⟨(bitLength n + 7) / 8 - 1, by omega⟩
  intro x hx
  rw [hm, toBytesBE] at hx
  simp only [List.head?_cons, Option.some.injEq] at hx
  have hlow : 2 ^ (8 * m) ≤ n := by
    have h8m : 8 * m ≤ Nat.log2 n := by omega
    calc 2 ^ (8 * m) ≤ 2 ^ Nat.log2 n := Nat.pow_le_pow_right (by norm_num) h8m
      _ ≤ n := Nat.log2_self_le h0
  have hhigh : n < 2 ^ (8 * m) * 256 := by
    have := lt_pow_bitLength n
    rw [hm] at this
    calc n < 2 ^ (8 * (m + 1)) := this
      _ = 2 ^ (8 * m) * 256 := by rw [Nat.mul_succ, pow_add]; norm_num
  have hq1 : 1 ≤ n / 2 ^ (8 * m) := (Nat.one_le_div_iff (Nat.pos_pow_of_pos _ (by norm_num))).mpr hlow
  have hq2 : n / 2 ^ (8 * m) < 256 := Nat.div_lt_of_lt_mul hhigh
  rw [Nat.shiftRight_eq_div_pow] at hx
  omega

/-- The padding count of `base58_decode` equals the leading-separator count. -/
theorem npad_eq_takeWhile (s : List Nat) :
    s.length - (s.dropWhile (· == 49)).length = (s.takeWhile (· == 49)).length := by
  have h := congrArg List.length (List.takeWhile_append_dropWhile (· == 49) s)
  simp only [List.length_append] at h
  omega

/-- `base58Num` fails exactly when some character is outside the alphabet. -/
theorem base58Num_eq_none_iff (s : List Nat) :
    base58Num s = none ↔ ∃ c ∈ s, c ∉ BASE58_ALPHABET := by
  have gen : ∀ (l : List Nat) (a : Nat),
      (l.foldlM (fun num c =>
        match BASE58_ALPHABET.findIdx? (· = c) with
        | none => none
        | some i => some (num * 58 + i)) a = none) ↔ ∃ c ∈ l, c ∉ BASE58_ALPHABET := by
    intro l
    induction l with
    | nil => intro a; simp
    | cons x xs ih =>
      intro a
      rw [List.foldlM_cons]
      cases hf : BASE58_ALPHABET.findIdx? (· = x) with
      | none =>
        have hx : x ∉ BASE58_ALPHABET := findIdxq_none_iff.mp hf
        simp [hx]
      | some i =>
        have hx : x ∈ BASE58_ALPHABET := by
          by_contra hc
          rw [findIdxq_none_iff.mpr hc] at hf
          cases hf
        simp only [Option.bind_eq_bind, Option.some_bind, ih]
        constructor
        · rintro ⟨c, hc, hnc⟩
          exact ⟨c, List.mem_cons_of_mem _ hc, hnc⟩
        · rintro ⟨c, hc, hnc⟩
          cases hc with
          | head => exact absurd hx hnc
          | tail _ hc => exact ⟨c, hc, hnc⟩
  exact gen s 0

/-- Spec-side: the base-58 big-endian numeric value of an alphabet string. -/
def base58ValueSpec (s : List Nat) : Nat :=
  s.foldl (fun acc c => acc * 58 + BASE58_ALPHABET.findIdx (· = c)) 0

/-- Spec-side: leading characters mapping to alphabet value 0. -/
def leadingZeros58 (s : List Nat) : Nat := (s.takeWhile (· == 49)).length

/-- On an alphabet string, `base58Num` computes the base-58 value. -/
theorem base58Num_eq_some (s : List Nat) (h : ∀ c ∈ s, c ∈ BASE58_ALPHABET) :
    base58Num s = some (base58ValueSpec s) := by
  have gen : ∀ (l : List Nat), (∀ c ∈ l, c ∈ BASE58_ALPHABET) → ∀ (a : Nat),
      (l.foldlM (fun num c =>
        match BASE58_ALPHABET.findIdx? (· = c) with
        | none => none
        | some i => some (num * 58 + i)) a) =
      some (l.foldl (fun acc c => acc * 58 + BASE58_ALPHABET.findIdx (· = c)) a) := by
    intro l
    induction l with
    | nil => intro _ a; rfl
    | cons x xs ih =>
      intro hall a
      rw [List.foldlM_cons, findIdxq_mem (hall x (List.mem_cons_self x xs))]
      simp only [Option.bind_eq_bind, Option.some_bind, List.foldl_cons]
      exact ih (fun c hc => hall c (List.mem_cons_of_mem _ hc)) _
  exact gen s h 0

set_option maxHeartbeats 1000000 in
/-- C2: `base58_check` is true exactly when decoding succeeds with at
least 4 bytes and the first 4 bytes of the double SHA-256 of the body
equal the trailing 4-byte checksum; in particular it returns false, and
does not fail, whenever decoding fails or yields fewer than 4 bytes. -/
theorem base58_check_spec (s : List Nat) :
    base58_check s = true ↔
      ∃ d, base58_decode s = some d ∧ 4 ≤ d.length ∧
        (sha256 (sha256 (d.take (d.length - 4)))).take 4 = d.drop (d.length - 4) := by
  cases h : base58_decode s with
  | none =>
    have hc : base58_check s = false := by simp [base58_check, h]
    rw [hc]
    simp [h]
  | some d =>
    by_cases hl : d.length < 4
    · have hc : base58_check s = false := by simp [base58_check, h, hl]
      rw [hc]
      constructor
      · intro hb; cases hb
      · rintro ⟨d', hd', hlen, -⟩
        injection hd' with he
        subst he
        exact absurd hlen (by omega)
    · have hc : base58_check s =
          (d.drop (d.length - 4) == (sha256 (sha256 (d.take (d.length - 4)))).take 4) := by
        simp [base58_check, h, hl]
      rw [hc, beq_iff_eq]
      constructor
      · intro he
        exact ⟨d, rfl, by omega, he.symm⟩
      · rintro ⟨d', hd', hlen, hh⟩
        injection hd' with he
        subst he
        exact hh.symm

set_option maxRecDepth 1000000 in
/-- Witness for C2 at the spec's P2PKH example address, whose checksum holds. -/
theorem base58_check_spec_witness :
    ∃ d, base58_decode (codes "1A1zP1eP5QGefi2DMPTfTL5SLmv7DivfNa") = some d ∧ 4 ≤ d.length ∧
      (sha256 (sha256 (d.take (d.length - 4)))).take 4 = d.drop (d.length - 4) :=
  (base58_check_spec (codes "1A1zP1eP5QGefi2DMPTfTL5SLmv7DivfNa")).mp (by decide)

/-- C6: a string made of alphabet characters decodes to the minimal
big-endian representation of its base-58 value, re-prefixed with one zero
byte per leading value-0 character; any string containing a character
outside the alphabet fails to decode.  Minimality is expressed as: the
bytes denote the value, each byte is below 256, and there is no leading
zero byte. -/
theorem base58_decode_spec (s : List Nat) :
    (base58_decode s = none ↔ ∃ c ∈ s, c ∉ BASE58_ALPHABET) ∧
    ((∀ c ∈ s, c ∈ BASE58_ALPHABET) →
      ∃ b, base58_decode s = some (List.replicate (leadingZeros58 s) 0 ++ b) ∧
        bytesBEtoNat b = base58ValueSpec s ∧ (∀ x ∈ b, x < 256) ∧
        ∀ x, b.head? = some x → x ≠ 0) := by
  constructor
  · cases hn : base58Num s with
    | none =>
      have hd : base58_decode s = none := by simp [base58_decode, hn]
      simp only [hd, true_iff]
      exact (base58Num_eq_none_iff s).mp hn
    | some num =>
      have hd : base58_decode s ≠ none := by simp [base58_decode, hn]
      constructor
      · intro h; exact absurd h hd
      · intro hex
        rw [(base58Num_eq_none_iff s).mpr hex] at hn
        cases hn
  · intro hall
    have hn : base58Num s = some (base58ValueSpec s) := base58Num_eq_some s hall
    refine ⟨toBytesBE ((bitLength (base58ValueSpec s) + 7) / 8) (base58ValueSpec s),
      ?_, ?_, ?_, ?_⟩
    · simp [base58_decode, hn, npad_eq_takeWhile, leadingZeros58]
    · rw [bytesBEtoNat_toBytesBE]
      exact Nat.mod_eq_of_lt (lt_pow_bitLength _)
    · exact toBytesBE_lt _ _
    · by_cases h0 : base58ValueSpec s = 0
      · intro x hx
        rw [h0] at hx
        have h7 : (bitLength 0 + 7) / 8 = 0 := by decide
        rw [h7] at hx
        exact Option.noConfusion hx
      · exact toBytesBE_head_ne_zero h0

/-- Witness for C6 at a concrete alphabet string with leading separators. -/
theorem base58_decode_spec_witness :
    ∃ b, base58_decode (codes "11z") = some (List.replicate (leadingZeros58 (codes "11z")) 0 ++ b) ∧
      bytesBEtoNat b = base58ValueSpec (codes "11z") ∧ (∀ x ∈ b, x < 256) ∧
      ∀ x, b.head? = some x → x ≠ 0 :=
  (base58_decode_spec (codes "11z")).2 (by decide)

/-! ## Bech32 split helper lemmas -/

/-- `rfind` fails exactly on non-members. -/
theorem rfind_eq_none {c : Nat} {l : List Nat} : rfind c l = none ↔ c ∉ l := by
  induction l with
  | nil => simp [rfind]
  | cons x xs ih =>
    rw [rfind]
    cases h : rfind c xs with
    | some i =>
      simp only [reduceCtorEq, false_iff]
      intro hc
      have hm : c ∉ xs := fun hm => hc (List.mem_cons_of_mem _ hm)
      rw [ih.mpr hm] at h
      cases h
    | none =>
      have hnx : c ∉ xs := ih.mp h
      by_cases hx : x = c
      · simp [hx]
      · simp only [hx, if_false, List.mem_cons, not_or, true_iff]
        exact ⟨fun he => hx he.symm, hnx⟩

/-- A successful `rfind` returns an in-range index of the last occurrence. -/
theorem rfind_spec {c : Nat} : ∀ {l : List Nat} {p : Nat}, rfind c l = some p →
    p < l.length ∧ l[p]? = some c ∧ ∀ i, p < i → l[i]? ≠ some c := by
  intro l
  induction l with
  | nil => intro p h; cases h
  | cons x xs ih =>
    intro p h
    rw [rfind] at h
    cases hx : rfind c xs with
    | some i =>
      rw [hx] at h
      injection h with he
      subst he
      obtain ⟨h1, h2, h3⟩ := ih hx
      refine ⟨by simpa using h1, by simpa using h2, ?_⟩
      intro j hj
      cases j with
      | zero => omega
      | succ k =>
        rw [List.getElem?_cons_succ]
        exact h3 k (by omega)
    | none =>
      rw [hx] at h
      have hnx : c ∉ xs := rfind_eq_none.mp hx
      by_cases hxc : x = c
      · rw [if_pos hxc] at h
        injection h with he
        subst he
        refine ⟨by simp, by simp [hxc], ?_⟩
        intro j hj
        cases j with
        | zero => omega
        | succ k =>
          rw [List.getElem?_cons_succ]
          exact fun hm => hnx (List.getElem?_mem hm)
      · rw [if_neg hxc] at h
        cases h

/-- The separator occurs at no position at least 1 exactly when `rfind`
answers `-1` or 0. -/
theorem rfind_low_iff {l : List Nat} {c : Nat} :
    (rfind c l = none ∨ rfind c l = some 0) ↔ ∀ i, 1 ≤ i → l[i]? ≠ some c := by
  constructor
  · rintro (h | h) i hi hm
    · exact rfind_eq_none.mp h (List.getElem?_mem hm)
    · exact (rfind_spec h).2.2 i (by omega) hm
  · intro hall
    cases h : rfind c l with
    | none => exact Or.inl rfl
    | some p =>
      right
      by_cases hp : p = 0
      · rw [hp]
      · exact absurd ((rfind_spec h).2.1) (hall p (by omega))

/-- `charsetIdx` fails exactly when some character is outside the charset. -/
theorem charsetIdx_eq_none_iff {l : List Nat} :
    charsetIdx l = none ↔ ∃ c ∈ l, c ∉ BECH32_CHARSET := by
  induction l with
  | nil => simp [charsetIdx]
  | cons x xs ih =>
    rw [charsetIdx]
    cases hf : BECH32_CHARSET.findIdx? (· = x) with
    | none =>
      have hx : x ∉ BECH32_CHARSET := findIdxq_none_iff.mp hf
      simp only [eq_self_iff_true, true_iff]
      exact ⟨x, List.mem_cons_self x xs, hx⟩
    | some i =>
      have hx : x ∈ BECH32_CHARSET := by
        by_contra hc
        rw [findIdxq_none_iff.mpr hc] at hf
        cases hf
      cases hcs : charsetIdx xs with
      | none =>
        constructor
        · intro _
          obtain ⟨c, hc, hnc⟩ := ih.mp hcs
          exact ⟨c, List.mem_cons_of_mem _ hc, hnc⟩
        · intro _
          rfl
      | some rest =>
        constructor
        · intro h
          exact Option.noConfusion h
        · rintro ⟨c, hc, hnc⟩
          exfalso
          rcases List.mem_cons.mp hc with rfl | hc
          · exact hnc hx
          · have hn : charsetIdx xs = none := ih.mpr ⟨c, hc, hnc⟩
            rw [hn] at hcs
            cases hcs

/-- All indices produced by `charsetIdx` are 5-bit values. -/
theorem charsetIdx_values : ∀ {l d : List Nat}, charsetIdx l = some d →
    ∀ v ∈ d, v < 32 := by
  intro l
  induction l with
  | nil =>
    intro d h
    rw [charsetIdx] at h
    injection h with he
    subst he
    intro v hv
    cases hv
  | cons x xs ih =>
    intro d h
    rw [charsetIdx] at h
    cases hf : BECH32_CHARSET.findIdx? (· = x) with
    | none => rw [hf] at h; cases h
    | some i =>
      rw [hf] at h
      cases hcs : charsetIdx xs with
      | none => rw [hcs] at h; cases h
      | some rest =>
        rw [hcs] at h
        injection h with he
        subst he
        have hx : x ∈ BECH32_CHARSET := by
          by_contra hc
          rw [findIdxq_none_iff.mpr hc] at hf
          cases hf
        have hi : i < 32 := by
          rw [findIdxq_mem hx] at hf
          injection hf with hfi
          subst hfi
          have hlt := List.findIdx_lt_length_of_exists (p := (· = x)) ⟨x, hx, by simp⟩
          have hlen : BECH32_CHARSET.length = 32 := rfl
          omega
        intro v hv
        rcases List.mem_cons.mp hv with rfl | hv
        · exact hi
        · exact ih hcs v hv

/-- Lowercasing a code point twice equals lowercasing it once. -/
theorem lowerCode_idem (c : Nat) : lowerCode (lowerCode c) = lowerCode c := by
  unfold lowerCode
  split
  · split <;> omega
  · rfl

/-- `lowerStr` is idempotent. -/
theorem lowerStr_idem (s : List Nat) : lowerStr (lowerStr s) = lowerStr s := by
  unfold lowerStr
  rw [List.map_map]
  exact List.map_congr_left fun c _ => lowerCode_idem c

/-- Full case analysis of `decode_bech32`: the failure conditions and the
shape of a successful split. -/
theorem decode_bech32_cases (a : List Nat) :
    (decode_bech32 a = none ↔
      (∃ c ∈ a, c < 33 ∨ 126 < c) ∨
      (lowerStr a ≠ a ∧ upperStr a ≠ a) ∨
      (∀ i, 1 ≤ i → (lowerStr a)[i]? ≠ some 49) ∨
      (∃ pos, rfind 49 (lowerStr a) = some pos ∧ (lowerStr a).length < pos + 7) ∨
      (∃ pos, rfind 49 (lowerStr a) = some pos ∧
        ∃ c ∈ (lowerStr a).drop (pos + 1), c ∉ BECH32_CHARSET)) ∧
    (∀ hrp data, decode_bech32 a = some (hrp, data) →
      ∃ pos, rfind 49 (lowerStr a) = some pos ∧ 1 ≤ pos ∧
        hrp = (lowerStr a).take pos ∧
        charsetIdx ((lowerStr a).drop (pos + 1)) = some data) := by
  have hany : (a.any fun x => x < 33 || 126 < x) = true ↔ ∃ c ∈ a, c < 33 ∨ 126 < c := by
    simp [List.any_eq_true]
  by_cases h1 : (a.any fun x => x < 33 || 126 < x) = true
  · have hd : decode_bech32 a = none := by
      simp only [decode_bech32, if_pos h1]
    refine ⟨?_, ?_⟩
    · rw [hd]
      exact iff_of_true rfl (Or.inl (hany.mp h1))
    · intro hrp data hsome
      rw [hd] at hsome
      cases hsome
  · have h1' : ¬ ∃ c ∈ a, c < 33 ∨ 126 < c := fun hx => h1 (hany.mpr hx)
    by_cases h2 : lowerStr a ≠ a ∧ upperStr a ≠ a
    · have hd : decode_bech32 a = none := by
        simp only [decode_bech32, if_neg h1, if_pos h2]
      refine ⟨?_, ?_⟩
      · rw [hd]
        exact iff_of_true rfl (Or.inr (Or.inl h2))
      · intro hrp data hsome
        rw [hd] at hsome
        cases hsome
    · cases hr : rfind 49 (lowerStr a) with
      | none =>
        have hd : decode_bech32 a = none := by
          simp only [decode_bech32, if_neg h1, if_neg h2, hr]
        refine ⟨?_, ?_⟩
        · rw [hd]
          exact iff_of_true rfl (Or.inr (Or.inr (Or.inl (rfind_low_iff.mp (Or.inl hr)))))
        · intro hrp data hsome
          rw [hd] at hsome
          cases hsome
      | some pos =>
        by_cases hp : pos < 1
        · have hp0 : pos = 0 := by omega
          have hd : decode_bech32 a = none := by
            simp only [decode_bech32, if_neg h1, if_neg h2, hr, if_pos hp]
          refine ⟨?_, ?_⟩
          · rw [hd]
            exact iff_of_true rfl
              (Or.inr (Or.inr (Or.inl (rfind_low_iff.mp (Or.inr (hp0 ▸ hr))))))
          · intro hrp data hsome
            rw [hd] at hsome
            cases hsome
        · by_cases hl : (lowerStr a).length < pos + 7
          · have hd : decode_bech32 a = none := by
              simp only [decode_bech32, if_neg h1, if_neg h2, hr, if_neg hp, if_pos hl]
            refine ⟨?_, ?_⟩
            · rw [hd]
              exact iff_of_true rfl (Or.inr (Or.inr (Or.inr (Or.inl ⟨pos, rfl, hl⟩))))
            · intro hrp data hsome
              rw [hd] at hsome
              cases hsome
          · cases hcs : charsetIdx ((lowerStr a).drop (pos + 1)) with
            | none =>
              have hd : decode_bech32 a = none := by
                simp only [decode_bech32, if_neg h1, if_neg h2, hr, if_neg hp, if_neg hl, hcs]
              refine ⟨?_, ?_⟩
              · rw [hd]
                exact iff_of_true rfl (Or.inr (Or.inr (Or.inr (Or.inr
                  ⟨pos, rfl, charsetIdx_eq_none_iff.mp hcs⟩))))
              · intro hrp data hsome
                rw [hd] at hsome
                cases hsome
            | some dv =>
              have hd : decode_bech32 a = some ((lowerStr a).take pos, dv) := by
                simp only [decode_bech32, if_neg h1, if_neg h2, hr, if_neg hp, if_neg hl, hcs]
              refine ⟨?_, ?_⟩
              · rw [hd]
                constructor
                · intro hcontra
                  exact Option.noConfusion hcontra
                · rintro (hD1 | hD2 | hD3 | hD4 | hD5)
                  · exact absurd hD1 h1'
                  · exact absurd hD2 h2
                  · exact absurd (rfind_spec hr).2.1 (hD3 pos (by omega))
                  · obtain ⟨q, hq, hlq⟩ := hD4
                    injection hq with he
                    subst he
                    exact absurd hlq hl
                  · obtain ⟨q, hq, hbad⟩ := hD5
                    injection hq with he
                    subst he
                    have hn := charsetIdx_eq_none_iff.mpr hbad
                    rw [hn] at hcs
                    cases hcs
              · intro hrp data hsome
                rw [hd] at hsome
                injection hsome with hpair
                cases hpair
                exact ⟨pos, rfl, by omega, rfl, hcs⟩

set_option maxRecDepth 100000 in
/-- C3: `decode_bech32` fails exactly when a code point lies outside
[33,126], the string is mixed-case, the lowercased string has no
separator occurrence at a position of at least 1, fewer than 6
characters follow the last separator, or a character after the last
separator is outside the charset; in particular the spec's mixed-case
example is rejected.  Otherwise it returns the lowercased prefix before
the last separator and the charset indices of the characters after it. -/
theorem decode_bech32_split_spec (a : List Nat) :
    (decode_bech32 a = none ↔
      (∃ c ∈ a, c < 33 ∨ 126 < c) ∨
      (lowerStr a ≠ a ∧ upperStr a ≠ a) ∨
      (∀ i, 1 ≤ i → (lowerStr a)[i]? ≠ some 49) ∨
      (∃ pos, rfind 49 (lowerStr a) = some pos ∧ (lowerStr a).length < pos + 7) ∨
      (∃ pos, rfind 49 (lowerStr a) = some pos ∧
        ∃ c ∈ (lowerStr a).drop (pos + 1), c ∉ BECH32_CHARSET)) ∧
    (∀ hrp data, decode_bech32 a = some (hrp, data) →
      ∃ pos, rfind 49 (lowerStr a) = some pos ∧ hrp = (lowerStr a).take pos ∧
        charsetIdx ((lowerStr a).drop (pos + 1)) = some data) ∧
    decode_bech32 (codes "bC1qxy2kgdygjrsqtzq2n0yrf2493p83kkfjhx0wlh") = none := by
  refine ⟨(decode_bech32_cases a).1, ?_, by decide⟩
  intro hrp data h
  obtain ⟨pos, hfind, -, htake, hidx⟩ := (decode_bech32_cases a).2 hrp data h
  exact ⟨pos, hfind, htake, hidx⟩

set_option maxRecDepth 100000 in
/-- Witness for C3: the success branch instantiated at the SegWit example. -/
theorem decode_bech32_split_spec_witness :
    ∃ pos, rfind 49 (lowerStr (codes "bc1qxy2kgdygjrsqtzq2n0yrf2493p83kkfjhx0wlh")) =
        some pos ∧
      codes "bc" = (lowerStr (codes "bc1qxy2kgdygjrsqtzq2n0yrf2493p83kkfjhx0wlh")).take pos ∧
      charsetIdx ((lowerStr (codes "bc1qxy2kgdygjrsqtzq2n0yrf2493p83kkfjhx0wlh")).drop
        (pos + 1)) = some segwitData :=
  (decode_bech32_split_spec (codes "bc1qxy2kgdygjrsqtzq2n0yrf2493p83kkfjhx0wlh")).2.1
    (codes "bc") segwitData (by decide)

/-- C8: a successful `decode_bech32` returns a non-empty lowercase
human-readable part occupying the positions before the last separator of
the lowercased input, and data values all in [0,31]. -/
theorem decode_bech32_invariant (a hrp data : List Nat)
    (h : decode_bech32 a = some (hrp, data)) :
    hrp ≠ [] ∧ lowerStr hrp = hrp ∧
    (∃ pos, rfind 49 (lowerStr a) = some pos ∧ hrp = (lowerStr a).take pos) ∧
    ∀ v ∈ data, v ≤ 31 := by
  obtain ⟨pos, hfind, hge, htake, hidx⟩ := (decode_bech32_cases a).2 hrp data h
  have hlt : pos < (lowerStr a).length := (rfind_spec hfind).1
  refine ⟨?_, ?_, ⟨pos, hfind, htake⟩, ?_⟩
  · rw [htake]
    intro hnil
    have hlen := congrArg List.length hnil
    rw [List.length_take, min_eq_left (le_of_lt hlt)] at hlen
    simp at hlen
    omega
  · have hmt : lowerStr ((lowerStr a).take pos) = (lowerStr (lowerStr a)).take pos := by
      unfold lowerStr
      exact List.map_take _ _ _
    rw [htake, hmt, lowerStr_idem]
  · intro v hv
    have := charsetIdx_values hidx v hv
    omega

set_option maxRecDepth 100000 in
/-- Witness for C8 at the SegWit example address. -/
theorem decode_bech32_invariant_witness :
    codes "bc" ≠ [] ∧ lowerStr (codes "bc") = codes "bc" ∧
    (∃ pos, rfind 49 (lowerStr (codes "bc1qxy2kgdygjrsqtzq2n0yrf2493p83kkfjhx0wlh")) =
        some pos ∧
      codes "bc" = (lowerStr (codes "bc1qxy2kgdygjrsqtzq2n0yrf2493p83kkfjhx0wlh")).take pos) ∧
    ∀ v ∈ segwitData, v ≤ 31 :=
  decode_bech32_invariant (codes "bc1qxy2kgdygjrsqtzq2n0yrf2493p83kkfjhx0wlh")
    (codes "bc") segwitData (by decide)

/-! ## Classifier claims -/

/-- Spec wording of the classifier decision tree, written from the spec's
step list: base58 dispatch on a leading 1 or 3, bech32 dispatch on a
case-insensitive bc1, finer prefix selection inside each branch. -/
def validateSpec (address : List Nat) : String :=
  if startsWith address (codes "1") then
    if base58_check address then "Legacy P2PKH" else "Invalid"
  else if startsWith address (codes "3") then
    if base58_check address then "P2SH" else "Invalid"
  else if startsWith (lowerStr address) (codes "bc1") then
    if validate_bech32 address = "bech32" then
      if startsWith (lowerStr address) (codes "bc1q") then "Native SegWit bech32"
      else "Unknown bech32"
    else if validate_bech32 address = "bech32m" then
      if startsWith (lowerStr address) (codes "bc1p") then "Taproot bech32m"
      else "Unknown bech32m"
    else "Invalid"
  else "Invalid"

/-- C1: `validate` implements the spec's classification tree: Base58Check
dispatch for a leading 1 or 3 with labels Legacy P2PKH and P2SH, the
bech32/bech32m dispatch with the bc1q and bc1p refinements and the
Unknown fallbacks, and Invalid everywhere else. -/
theorem validate_spec_eq (a : List Nat) : validate a = validateSpec a := by
  unfold validate validateSpec
  by_cases h1 : startsWith a (codes "1") = true
  · simp [h1]
  · by_cases h3 : startsWith a (codes "3") = true
    · simp [h1, h3]
    · simp [h1, h3]

/-- Characters below code point 65 are untouched by `lowerCode`, also as
the target of it, so such single-character prefixes transfer. -/
theorem startsWith_lower_low (t : List Nat) (c : Nat) (hc : c < 65) :
    startsWith (lowerStr t) [c] = startsWith t [c] := by
  cases t with
  | nil => rfl
  | cons x xs =>
    simp only [startsWith, lowerStr, List.map_cons, List.isPrefixOf, Bool.and_true]
    rw [Bool.eq_iff_iff]
    simp only [beq_iff_eq]
    unfold lowerCode
    split <;> omega

/-- Lowercasing commutes out of the range check of `decode_bech32`. -/
theorem any_range_lower (s : List Nat) :
    ((lowerStr s).any fun x => x < 33 || 126 < x) = (s.any fun x => x < 33 || 126 < x) := by
  unfold lowerStr
  rw [List.any_map]
  congr 1
  funext x
  show (decide (lowerCode x < 33) || decide (126 < lowerCode x)) = _
  have h : (lowerCode x < 33 ∨ 126 < lowerCode x) ↔ (x < 33 ∨ 126 < x) := by
    unfold lowerCode
    split <;> omega
  rw [Bool.eq_iff_iff]
  simp only [Bool.or_eq_true, decide_eq_true_eq]
  exact h

/-- On an input with no lowercase letters, `decode_bech32` is invariant
under lowercasing. -/
theorem decode_bech32_lower (s : List Nat) (hupper : upperStr s = s) :
    decode_bech32 (lowerStr s) = decode_bech32 s := by
  unfold decode_bech32
  rw [any_range_lower, lowerStr_idem]
  rw [if_neg (fun h : lowerStr s ≠ lowerStr s ∧ _ => h.1 rfl),
    if_neg (fun h : _ ∧ upperStr s ≠ s => h.2 hupper)]

/-- C10: on an ASCII-range input equal to its own uppercase form and not
starting with 1 or 3, `validate` gives the same answer on the input and
on its lowercased form. -/
theorem validate_lower_invariant (s : List Nat)
    (_hascii : ∀ c ∈ s, c < 128)
    (hupper : upperStr s = s)
    (h1 : startsWith s (codes "1") = false)
    (h3 : startsWith s (codes "3") = false) :
    validate s = validate (lowerStr s) := by
  have hc1 : codes "1" = [49] := by decide
  have hc3 : codes "3" = [51] := by decide
  have hl1 : startsWith (lowerStr s) (codes "1") = startsWith s (codes "1") := by
    rw [hc1]
    exact startsWith_lower_low s 49 (by norm_num)
  have hl3 : startsWith (lowerStr s) (codes "3") = startsWith s (codes "3") := by
    rw [hc3]
    exact startsWith_lower_low s 51 (by norm_num)
  have hvb : validate_bech32 (lowerStr s) = validate_bech32 s := by
    unfold validate_bech32
    rw [decode_bech32_lower s hupper]
  unfold validate
  rw [hl1, hl3, lowerStr_idem, hvb, h1, h3]
  simp

set_option maxRecDepth 100000 in
/-- Witness for C10 at a concrete all-uppercase ASCII string. -/
theorem validate_lower_invariant_witness :
    (∀ c ∈ codes "XYZ", c < 128) ∧ upperStr (codes "XYZ") = codes "XYZ" ∧
      startsWith (codes "XYZ") (codes "1") = false ∧
      startsWith (codes "XYZ") (codes "3") = false ∧
      validate (codes "XYZ") = validate (lowerStr (codes "XYZ")) :=
  ⟨by decide, by decide, by decide, by decide,
    validate_lower_invariant (codes "XYZ") (by decide) (by decide) (by decide) (by decide)⟩
